import Mathlib

/-
Verification development for the chunked YouTube transcription pipeline
(src/server.ts).  The shallow embedding below models:

  - getAudioDuration        (server.ts lines 91-100)
  - splitAudioFile          (chunk count computation, lines 105-140)
  - transcribeAudioChunksParallel (per-chunk result construction and the
    merge of ordered chunk results, lines 145-255)
  - processSingleVideo      (threshold decision, direct vs chunked path,
    error propagation and chunk-file cleanup, lines 343-548)

JavaScript numbers are modelled as exact rationals (ℚ); a JS number that
may be NaN (the result of parseFloat) is modelled as Option ℚ with none
standing for NaN.  JS truthiness of numbers (0 and NaN are falsy) and of
strings (the empty string is falsy) is modelled explicitly.  Fallible
external calls (the OpenAI transcription engine) are modelled as Except
values; Promise.all over the per-chunk calls fails iff any call fails.
The filesystem working area for one pipeline invocation is modelled as
the set of chunk files present plus a flag for the temporary chunks
directory.
-/

namespace YTT

/-- JS numeric truthiness for an optional rational: undefined and NaN
(modelled as none) and 0 are falsy. -/
def jsTruthyQ : Option ℚ → Bool
  | none => false
  | some x => decide (x ≠ 0)

/-- The JS expression x || d for an optional numeric x and default d. -/
def jsOrQ (x : Option ℚ) (d : ℚ) : ℚ :=
  if jsTruthyQ x then x.getD 0 else d

/-- JS string truthiness: undefined and the empty string are falsy. -/
def jsTruthyS : Option String → Bool
  | none => false
  | some s => decide (s ≠ "")

/-- The JS expression s || d for an optional string s and default d. -/
def jsOrS (s : Option String) (d : String) : String :=
  if jsTruthyS s then s.getD "" else d

/-- Does the character list cs start with the character list pat. -/
def strStartsWith : List Char → List Char → Bool
  | _, [] => true
  | [], _ :: _ => false
  | c :: cs, d :: ds => c == d && strStartsWith cs ds

/-- Does the character list cs contain pat as a contiguous sublist. -/
def containsSub : List Char → List Char → Bool
  | [], pat => pat.isEmpty
  | c :: cs, pat => strStartsWith (c :: cs) pat || containsSub cs pat

/-- JS String.prototype.includes (substring containment), used by the
source as model.includes('gpt-4o'). -/
def jsIncludes (s pat : String) : Bool :=
  containsSub s.data pat.data

/-- Drop leading and trailing whitespace from a character list. -/
def trimChars (cs : List Char) : List Char :=
  ((cs.dropWhile Char.isWhitespace).reverse.dropWhile Char.isWhitespace).reverse

/-- JS String.prototype.trim: remove leading and trailing whitespace. -/
def jsTrim (s : String) : String :=
  String.mk (trimChars s.data)

/-- Numeric value of a list of decimal digit characters. -/
def digitsVal (cs : List Char) : ℕ :=
  cs.foldl (fun acc c => 10 * acc + (c.toNat - 48)) 0

/-- Value of a fractional digit string: digits interpreted after the
decimal point. -/
def fracVal (cs : List Char) : ℚ :=
  (digitsVal cs : ℚ) / ((10 : ℚ) ^ cs.length)

/-- JS parseFloat on the decimal strings ffprobe emits: an optional sign,
an integer part and an optional fractional part; none models NaN (no
numeric prefix at all). -/
def parseFloatQ (s : String) : Option ℚ :=
  let p : ℚ × List Char :=
    match s.data with
    | '-' :: rest => (-1, rest)
    | '+' :: rest => (1, rest)
    | cs => (1, cs)
  let intPart := p.2.takeWhile Char.isDigit
  let rest := p.2.dropWhile Char.isDigit
  let fracPart :=
    match rest with
    | '.' :: r => r.takeWhile Char.isDigit
    | _ => []
  if intPart.isEmpty && fracPart.isEmpty then none
  else some (p.1 * ((digitsVal intPart : ℚ) + fracVal fracPart))

/-- getAudioDuration (server.ts 91-100): run ffprobe; on success parse
the trimmed stdout with parseFloat, on any failure of the probe process
return 0.  The probe outcome is the Except argument; none in the result
models a NaN return value. -/
def getAudioDuration (probe : Except Unit String) : Option ℚ :=
  match probe with
  | .ok stdout => parseFloatQ (jsTrim stdout)
  | .error _ => some 0

/-- One transcript segment of the engine verbose_json schema: id, start,
end, seek, text, and the remaining engine fields (tokens, avg_logprob,
and so on) kept abstract and passed through unmodified by the spread in
the merge. -/
@[ext] structure Segment where
  id : ℤ
  start : ℚ
  «end» : ℚ
  seek : ℤ
  text : String
  extra : List (String × ℚ)
  deriving Repr, DecidableEq

/-- Engine usage accounting: duration based models report seconds, token
based models report total_tokens. -/
structure Usage where
  type : String
  seconds : Option ℚ
  total_tokens : Option ℚ
  deriving Repr, DecidableEq

/-- The fields of an engine transcription result that server.ts reads:
text, optional segments, language, duration and usage. -/
structure EngineTranscription where
  text : String
  segments : Option (List Segment)
  language : Option String
  duration : Option ℚ
  usage : Option Usage
  deriving Repr, DecidableEq

/-- The per-chunk record built at server.ts 177-185 from the engine
result of chunk number index. -/
structure ChunkResult where
  index : ℕ
  text : String
  segments : List Segment
  language : Option String
  duration : ℚ
  usage : Option Usage
  timeOffset : ℚ
  deriving Repr, DecidableEq

/-- Build the ChunkResult for chunk number index (server.ts 177-185):
segments defaults to the empty list, duration to the chunk window size
(JS ||, so a reported duration of 0 also falls back), and
timeOffset = index * chunkDurationSeconds. -/
def mkChunkResult (chunkDurationSeconds : ℚ) (index : ℕ)
    (t : EngineTranscription) : ChunkResult :=
  { index := index
    text := t.text
    segments := t.segments.getD []
    language := t.language
    duration := jsOrQ t.duration chunkDurationSeconds
    usage := t.usage
    timeOffset := index * chunkDurationSeconds }

/-- The chunk results for raws listed in submission order, chunk number
counting from i (the map with index at server.ts 162-186). -/
def chunkResultsAux (C : ℚ) : ℕ → List EngineTranscription → List ChunkResult
  | _, [] => []
  | i, t :: rest => mkChunkResult C i t :: chunkResultsAux C (i + 1) rest

/-- The chunk results for raws in submission order, chunk numbers 0,1,... -/
def chunkResults (C : ℚ) (raws : List EngineTranscription) : List ChunkResult :=
  chunkResultsAux C 0 raws

/-- The segment adjustment of server.ts 212-218: a map over the chunk's
segments carrying the running id counter; start and end are shifted by
the chunk time offset and seek is recomputed as the floor of the shifted
start in centiseconds; all other fields are spread through unchanged. -/
def adjustSegments (offset : ℚ) : ℕ → List Segment → List Segment
  | _, [] => []
  | counter, s :: rest =>
      { s with
        id := (counter : ℤ)
        start := s.start + offset
        «end» := s.«end» + offset
        seek := ⌊(s.start + offset) * 100⌋ } :: adjustSegments offset (counter + 1) rest

/-- The usage accumulation step of server.ts 224-229: add seconds when
the usage object carries a truthy seconds field, otherwise add
total_tokens when truthy, otherwise nothing. -/
def usageContribution : Option Usage → ℚ
  | none => 0
  | some u =>
      if jsTruthyQ u.seconds then u.seconds.getD 0
      else if jsTruthyQ u.total_tokens then u.total_tokens.getD 0
      else 0

/-- The text accumulation step of server.ts 205-208 on an already
trimmed chunk text: append a separating space only when the accumulated
text is nonempty (JS truthiness of the string), then the chunk text. -/
def textStep (acc t : String) : String :=
  (if acc ≠ "" then acc ++ " " else acc) ++ t

/-- The mutable merge state of server.ts 195-203. -/
structure MergeAcc where
  mergedText : String
  mergedSegments : List Segment
  totalDuration : ℚ
  usageSeconds : ℚ
  segmentIdCounter : ℕ
  deriving Repr, DecidableEq

/-- One iteration of the merge loop (server.ts 205-232) over a chunk
result: append a separating space only when the accumulated text is
nonempty, then the trimmed chunk text; adjust and append the chunk's
segments when it has any; take the running maximum of
timeOffset + duration; accumulate usage.  The JS (result.duration || 0)
is the identity on exact rationals. -/
def mergeStep (acc : MergeAcc) (r : ChunkResult) : MergeAcc :=
  let newText := textStep acc.mergedText (jsTrim r.text)
  let p : List Segment × ℕ :=
    if 0 < r.segments.length then
      (acc.mergedSegments ++ adjustSegments r.timeOffset acc.segmentIdCounter r.segments,
       acc.segmentIdCounter + r.segments.length)
    else (acc.mergedSegments, acc.segmentIdCounter)
  { mergedText := newText
    mergedSegments := p.1
    totalDuration := max acc.totalDuration (r.timeOffset + r.duration)
    usageSeconds := acc.usageSeconds + usageContribution r.usage
    segmentIdCounter := p.2 }

/-- The initial merge state (server.ts 195-203). -/
def initialAcc : MergeAcc :=
  { mergedText := ""
    mergedSegments := []
    totalDuration := 0
    usageSeconds := 0
    segmentIdCounter := 0 }

/-- The merged transcript object returned at server.ts 247-254; the
optional fields mirror the direct path, where segments, language,
duration and usage are passed through from the engine and may be
absent. -/
@[ext] structure MergedTranscript where
  text : String
  segments : Option (List Segment)
  language : Option String
  duration : Option ℚ
  usage : Option Usage
  chunksProcessed : ℕ
  deriving Repr, DecidableEq

/-- The merge of the ordered chunk results (server.ts 194-255): fold the
merge loop over the results; language is the first chunk's language
defaulted to unknown by JS ||; usage is rebuilt as a duration-type
record holding the accumulated seconds. -/
def mergeResults (results : List ChunkResult) : MergedTranscript :=
  let acc := results.foldl mergeStep initialAcc
  { text := acc.mergedText
    segments := some acc.mergedSegments
    language := some (jsOrS (results.head?.bind ChunkResult.language) "unknown")
    duration := some acc.totalDuration
    usage := some { type := "duration", seconds := some acc.usageSeconds, total_tokens := none }
    chunksProcessed := results.length }

/-- transcribeAudioChunksParallel (server.ts 145-255) on the engine
results of the chunks in submission order: build the per-chunk records,
sort them by chunk index (Promise.all preserves submission order, so
the sort is a stable no-op) and merge. -/
def transcribeAudioChunksParallel (C : ℚ) (raws : List EngineTranscription) :
    MergedTranscript :=
  mergeResults ((chunkResults C raws).mergeSort (fun a b => Nat.ble a.index b.index))

/-- Sequence a list of fallible results: Promise.all semantics at the
value level, failing iff any element failed. -/
def sequenceExcept : List (Except String EngineTranscription) →
    Except String (List EngineTranscription)
  | [] => .ok []
  | x :: xs =>
      match x with
      | .error e => .error e
      | .ok a =>
          match sequenceExcept xs with
          | .error e => .error e
          | .ok rest => .ok (a :: rest)

/-- transcribeAudioChunksParallel at the outcome level: each chunk's
engine call either returns a transcription or fails; any single failure
fails the whole call (Promise.all), otherwise the results are merged. -/
def transcribeAudioChunksParallelE (C : ℚ)
    (outcomes : List (Except String EngineTranscription)) :
    Except String MergedTranscript :=
  (sequenceExcept outcomes).map (transcribeAudioChunksParallel C)

/-- Is the model a GPT-4o variant (server.ts 157 and 369):
model.includes('gpt-4o'). -/
def isGPT4oModel (model : String) : Bool :=
  jsIncludes model "gpt-4o"

/-- The per-engine single-call duration limit (server.ts 373): 1400
seconds for GPT-4o models, 3600 seconds otherwise. -/
def maxDurationFor (model : String) : ℚ :=
  if isGPT4oModel model then 1400 else 3600

/-- The chunk count computed by splitAudioFile (server.ts 116):
Math.ceil(totalDuration / chunkDurationSeconds). -/
def numChunksFor (totalDuration chunkDurationSeconds : ℚ) : ℕ :=
  (⌈totalDuration / chunkDurationSeconds⌉).toNat

/-- The JS comparison duration >= threshold where duration may be NaN
(none): any comparison with NaN is false. -/
def jsGe (x : Option ℚ) (y : ℚ) : Bool :=
  match x with
  | none => false
  | some v => decide (y ≤ v)

/-- The filesystem working area of one pipeline invocation: which chunk
files exist (by chunk number) and whether the temporary chunks
directory exists. -/
structure FS where
  chunkFiles : List ℕ
  tempDir : Bool
  deriving Repr, DecidableEq

/-- The chunk cleanup loop of server.ts 234-243: unlink every listed
chunk file that exists. -/
def removeChunkFiles (fs : FS) (paths : List ℕ) : FS :=
  { fs with chunkFiles := fs.chunkFiles.filter (fun q => decide (q ∉ paths)) }

/-- The direct-path wrapping of the engine's single-call result
(server.ts 434-441): all content fields pass through unchanged and
chunksProcessed is set to 1. -/
def wrapDirect (t : EngineTranscription) : MergedTranscript :=
  { text := t.text
    segments := t.segments
    language := t.language
    duration := t.duration
    usage := t.usage
    chunksProcessed := 1 }

/-- The transcription phase of processSingleVideo (server.ts 363-444)
with its cleanup behaviour (404-420 and the in-merge cleanup): given the
probed duration, the per-chunk engine outcomes and the direct-call
outcome, decide the path by the model threshold.  Chunked path: create
the temp directory and one file per chunk, transcribe all chunks; on
success merge, unlink the chunk files and remove the temp directory; on
failure remove the temp directory recursively (taking the chunk files
with it).  Direct path: wrap the single result, touching no chunk
files. -/
def processCore (model : String) (probedDuration : Option ℚ)
    (engine : ℕ → Except String EngineTranscription)
    (direct : Except String EngineTranscription) (fs : FS) :
    Except String MergedTranscript × FS :=
  let maxDuration := maxDurationFor model
  if jsGe probedDuration maxDuration then
    let n := numChunksFor (probedDuration.getD 0) maxDuration
    let chunkPaths := List.range n
    let fs1 : FS := { chunkFiles := chunkPaths, tempDir := true }
    match sequenceExcept (chunkPaths.map engine) with
    | .ok raws =>
        let merged := transcribeAudioChunksParallel maxDuration raws
        let fs2 := removeChunkFiles fs1 chunkPaths
        let fs3 : FS := { fs2 with chunkFiles := [], tempDir := false }
        (.ok merged, fs3)
    | .error e => (.error e, { chunkFiles := [], tempDir := false })
  else
    match direct with
    | .ok t => (.ok (wrapDirect t), fs)
    | .error e => (.error e, fs)

/-- The outward result of one pipeline invocation (server.ts 503-510 and
543-547): success flag, the transcript on success, the error message on
failure. -/
structure PipelineResult where
  success : Bool
  transcript : Option MergedTranscript
  error : Option String
  deriving Repr, DecidableEq

/-- processSingleVideo's try/catch around the transcription phase
(server.ts 343-548) at the level of the probed duration: any thrown
error yields success = false with no transcript. -/
def processSingleVideoCore (model : String) (probedDuration : Option ℚ)
    (engine : ℕ → Except String EngineTranscription)
    (direct : Except String EngineTranscription) (fs : FS) :
    PipelineResult × FS :=
  match processCore model probedDuration engine direct fs with
  | (.ok m, fs1) => ({ success := true, transcript := some m, error := none }, fs1)
  | (.error e, fs1) => ({ success := false, transcript := none, error := some e }, fs1)

/-- processSingleVideo from the probe outcome: the probed duration is
getAudioDuration of the ffprobe outcome (server.ts 365). -/
def processSingleVideo (model : String) (probe : Except Unit String)
    (engine : ℕ → Except String EngineTranscription)
    (direct : Except String EngineTranscription) (fs : FS) :
    PipelineResult × FS :=
  processSingleVideoCore model (getAudioDuration probe) engine direct fs

/-- The merged text as the spec sentence for the merge describes it:
each chunk's text trimmed, whitespace-only chunks contributing nothing,
the rest joined with exactly one separating space and never a duplicated
separator. -/
def joinWithSpace : List String → String
  | [] => ""
  | [t] => t
  | t :: rest => t ++ " " ++ joinWithSpace rest

/-- Modelled from the spec: the merged text with exactly one separating
space between consecutive chunk texts, each trimmed, never a duplicated
separator even when a chunk's text is empty or whitespace-only. -/
def specMergedText (texts : List String) : String :=
  joinWithSpace (((texts.map jsTrim).filter (fun t => decide (t ≠ ""))))

/-- The ordered concatenation of per-chunk adjusted segments starting
from a given id counter, used to describe the merge loop's segment
output in closed form. -/
def segsFrom : List ChunkResult → ℕ → List Segment
  | [], _ => []
  | r :: rest, k =>
      adjustSegments r.timeOffset k r.segments ++ segsFrom rest (k + r.segments.length)

/-- An engine transcription carrying only text, all optional fields
absent; used for concrete instances. -/
def pureText (s : String) : EngineTranscription :=
  { text := s, segments := none, language := none, duration := none, usage := none }

/-- A concrete engine result whose text carries surrounding whitespace,
used to exhibit that the single-chunk merge is not the identity. -/
def rawWithSpaces : EngineTranscription :=
  { text := " hi "
    segments := some []
    language := some "en"
    duration := some 10
    usage := some { type := "duration", seconds := some 10, total_tokens := none } }

/-- A concrete two-outcome engine: chunk 0 succeeds, every later chunk
fails; used to exercise the fail-fast path on concrete inputs. -/
def engineW : ℕ → Except String EngineTranscription :=
  fun i => if i = 0 then .ok (pureText "a") else .error "chunk failed"

/-- A segment already in the merge's normal form for a first chunk: id 0
and seek equal to the floor of start times 100. -/
def segNormal : Segment :=
  { id := 0, start := 2, «end» := 3, seek := 200, text := "hi", extra := [] }

/-- A concrete engine result already in the single-chunk merge's normal
form: trimmed text, normalized segment, non-falsy language and duration,
and a duration-type usage. -/
def rawNormal : EngineTranscription :=
  { text := "hi"
    segments := some [segNormal]
    language := some "en"
    duration := some 10
    usage := some { type := "duration", seconds := some 10, total_tokens := none } }

/-- A concrete engine result carrying one segment whose internal id and
seek do not match the merge's renumbering, used as a witness input. -/
def rawWithSegment : EngineTranscription :=
  { text := "hi"
    segments := some [{ id := 7, start := 2, «end» := 3, seek := 999, text := "hi", extra := [] }]
    language := some "en"
    duration := some 10
    usage := some { type := "duration", seconds := some 10, total_tokens := none } }

/-! Helper lemmas: the sort in the dispatcher is the identity on the
already index-ordered chunk results. -/

theorem chunkResultsAux_index_le (C : ℚ) :
    ∀ (raws : List EngineTranscription) (i : ℕ) (r : ChunkResult),
      r ∈ chunkResultsAux C i raws → i ≤ r.index
  | [], _, _, h => absurd h (List.not_mem_nil _)
  | t :: rest, i, r, h => by
      rcases List.mem_cons.mp h with h1 | h1
      · subst h1; exact le_refl i
      · exact Nat.le_of_succ_le (chunkResultsAux_index_le C rest (i + 1) r h1)

theorem chunkResultsAux_sorted (C : ℚ) :
    ∀ (raws : List EngineTranscription) (i : ℕ),
      (chunkResultsAux C i raws).Pairwise (fun a b => Nat.ble a.index b.index = true)
  | [], _ => List.Pairwise.nil
  | t :: rest, i => by
      refine List.Pairwise.cons (fun b hb => ?_) (chunkResultsAux_sorted C rest (i + 1))
      have h1 := chunkResultsAux_index_le C rest (i + 1) b hb
      have h2 : (mkChunkResult C i t).index = i := rfl
      rw [Nat.ble_eq, h2]
      omega

theorem transcribe_eq_merge (C : ℚ) (raws : List EngineTranscription) :
    transcribeAudioChunksParallel C raws = mergeResults (chunkResults C raws) :=
  congrArg mergeResults (List.mergeSort_of_sorted (chunkResultsAux_sorted C raws 0))

/-! Helper lemmas about the text accumulation. -/

theorem textStep_empty (t : String) : textStep "" t = t := by
  simp [textStep]

theorem append_space_ne_empty (a t : String) : a ++ " " ++ t ≠ "" := by
  intro h
  have h1 := congrArg String.length h
  simp only [String.length_append] at h1
  have h2 : String.length " " = 1 := by decide
  have h3 : String.length "" = 0 := by decide
  rw [h2, h3] at h1
  omega

theorem foldl_textStep_ne_empty :
    ∀ (l : List String) (a : String), a ≠ "" →
      l.foldl textStep a = joinWithSpace (a :: l)
  | [], _, _ => rfl
  | t :: rest, a, ha => by
      have h1 : textStep a t = a ++ " " ++ t := by simp [textStep, ha]
      have h3 := foldl_textStep_ne_empty rest (a ++ " " ++ t) (append_space_ne_empty a t)
      calc (t :: rest).foldl textStep a
          = rest.foldl textStep (textStep a t) := rfl
        _ = rest.foldl textStep (a ++ " " ++ t) := by rw [h1]
        _ = joinWithSpace ((a ++ " " ++ t) :: rest) := h3
        _ = joinWithSpace (a :: t :: rest) := by
            cases rest with
            | nil => rfl
            | cons r rs => simp [joinWithSpace, String.append_assoc]

theorem foldl_textStep_dropWhile :
    ∀ l : List String,
      l.foldl textStep "" = joinWithSpace (l.dropWhile (fun t => t == ""))
  | [] => rfl
  | t :: rest => by
      by_cases ht : t = ""
      · subst ht
        have h1 : textStep "" "" = "" := by decide
        calc ("" :: rest).foldl textStep ""
            = rest.foldl textStep (textStep "" "") := rfl
          _ = rest.foldl textStep "" := by rw [h1]
          _ = joinWithSpace (rest.dropWhile (fun t => t == "")) :=
              foldl_textStep_dropWhile rest
          _ = joinWithSpace ((("" : String) :: rest).dropWhile (fun t => t == "")) := by
              simp [List.dropWhile]
      · have hb : (t == "") = false := beq_eq_false_iff_ne.mpr ht
        have h1 : ((t :: rest).dropWhile (fun t => t == "")) = t :: rest := by
          simp [List.dropWhile, hb]
        rw [h1]
        calc (t :: rest).foldl textStep ""
            = rest.foldl textStep (textStep "" t) := rfl
          _ = rest.foldl textStep t := by rw [textStep_empty]
          _ = joinWithSpace (t :: rest) := foldl_textStep_ne_empty rest t ht

theorem foldl_mergeStep_text :
    ∀ (l : List ChunkResult) (acc : MergeAcc),
      (l.foldl mergeStep acc).mergedText =
        (l.map (fun r => jsTrim r.text)).foldl textStep acc.mergedText
  | [], _ => rfl
  | r :: rest, acc => by
      have h1 : (mergeStep acc r).mergedText = textStep acc.mergedText (jsTrim r.text) := rfl
      calc ((r :: rest).foldl mergeStep acc).mergedText
          = (rest.foldl mergeStep (mergeStep acc r)).mergedText := rfl
        _ = (rest.map (fun r => jsTrim r.text)).foldl textStep (mergeStep acc r).mergedText :=
            foldl_mergeStep_text rest _
        _ = (rest.map (fun r => jsTrim r.text)).foldl textStep
              (textStep acc.mergedText (jsTrim r.text)) := by rw [h1]
        _ = ((r :: rest).map (fun r => jsTrim r.text)).foldl textStep acc.mergedText := rfl

theorem chunkResultsAux_map_text (C : ℚ) :
    ∀ (raws : List EngineTranscription) (i : ℕ),
      (chunkResultsAux C i raws).map (fun r => jsTrim r.text) =
        raws.map (fun t => jsTrim t.text)
  | [], _ => rfl
  | t :: rest, i => by
      simp only [chunkResultsAux, List.map_cons, chunkResultsAux_map_text C rest (i + 1)]
      rfl

/-- C6 (amended): the merged text equals the chunk texts, each trimmed,
joined left to right where a separating space is inserted before every
chunk once the accumulated text is non-empty: leading whitespace-only
chunks are skipped, and a later whitespace-only chunk contributes a
doubled separator.  In closed form: drop the leading empty trimmed
texts, then join with single spaces. -/
theorem c6_merged_text_amended (C : ℚ) (raws : List EngineTranscription) :
    (transcribeAudioChunksParallel C raws).text =
      joinWithSpace ((raws.map (fun t => jsTrim t.text)).dropWhile (fun t => t == "")) := by
  rw [transcribe_eq_merge]
  show ((chunkResults C raws).foldl mergeStep initialAcc).mergedText = _
  rw [foldl_mergeStep_text]
  show ((chunkResultsAux C 0 raws).map (fun r => jsTrim r.text)).foldl textStep "" = _
  rw [chunkResultsAux_map_text]
  exact foldl_textStep_dropWhile _

/-! Helper lemmas about the segment adjustment and the merged segment list. -/

theorem adjustSegments_length (off : ℚ) :
    ∀ (k : ℕ) (l : List Segment), (adjustSegments off k l).length = l.length
  | _, [] => rfl
  | k, _ :: rest => by
      simp [adjustSegments, adjustSegments_length off (k + 1) rest]

theorem adjustSegments_map_id (off : ℚ) :
    ∀ (k : ℕ) (l : List Segment),
      (adjustSegments off k l).map Segment.id = (List.range' k l.length).map Int.ofNat
  | _, [] => rfl
  | k, s :: rest => by
      simp only [adjustSegments, List.map_cons, List.length_cons, List.range'_succ]
      exact congrArg (List.cons _) (adjustSegments_map_id off (k + 1) rest)

theorem mergeStep_segments (acc : MergeAcc) (r : ChunkResult) :
    (mergeStep acc r).mergedSegments =
      acc.mergedSegments ++ adjustSegments r.timeOffset acc.segmentIdCounter r.segments ∧
    (mergeStep acc r).segmentIdCounter = acc.segmentIdCounter + r.segments.length := by
  by_cases h : 0 < r.segments.length
  · constructor <;> simp [mergeStep, h]
  · have h0 : r.segments = [] := List.length_eq_zero.mp (by omega)
    constructor <;> simp [mergeStep, h0, adjustSegments]

theorem foldl_mergeStep_segments :
    ∀ (l : List ChunkResult) (acc : MergeAcc),
      (l.foldl mergeStep acc).mergedSegments =
        acc.mergedSegments ++ segsFrom l acc.segmentIdCounter
  | [], acc => by simp [segsFrom]
  | r :: rest, acc => by
      obtain ⟨h1, h2⟩ := mergeStep_segments acc r
      calc ((r :: rest).foldl mergeStep acc).mergedSegments
          = (rest.foldl mergeStep (mergeStep acc r)).mergedSegments := rfl
        _ = (mergeStep acc r).mergedSegments ++
              segsFrom rest (mergeStep acc r).segmentIdCounter :=
            foldl_mergeStep_segments rest _
        _ = acc.mergedSegments ++ (adjustSegments r.timeOffset acc.segmentIdCounter r.segments
              ++ segsFrom rest (acc.segmentIdCounter + r.segments.length)) := by
            rw [h1, h2, List.append_assoc]
        _ = acc.mergedSegments ++ segsFrom (r :: rest) acc.segmentIdCounter := rfl

theorem segsFrom_map_id :
    ∀ (l : List ChunkResult) (k : ℕ),
      (segsFrom l k).map Segment.id =
        (List.range' k (segsFrom l k).length).map Int.ofNat
  | [], _ => rfl
  | r :: rest, k => by
      have ha := adjustSegments_map_id r.timeOffset k r.segments
      have ih := segsFrom_map_id rest (k + r.segments.length)
      show (adjustSegments r.timeOffset k r.segments ++
              segsFrom rest (k + r.segments.length)).map Segment.id = _
      rw [List.map_append, ha, ih, ← List.map_append]
      congr 1
      have hr := List.range'_append k r.segments.length
        (segsFrom rest (k + r.segments.length)).length 1
      rw [one_mul] at hr
      rw [hr]
      congr 1
      show _ = (adjustSegments r.timeOffset k r.segments ++
        segsFrom rest (k + r.segments.length)).length
      rw [List.length_append, adjustSegments_length]
      omega

/-- C1: in the transcript merged from a non-empty ordered list of chunk
results, the segment ids are exactly 0, 1, ..., totalSegments - 1 in
output order, regardless of the chunks' own internal segment ids. -/
theorem c1_merged_segment_ids (C : ℚ) (raws : List EngineTranscription)
    (_hne : raws ≠ []) :
    ∃ segs : List Segment,
      (transcribeAudioChunksParallel C raws).segments = some segs ∧
      segs.map Segment.id = (List.range segs.length).map Int.ofNat := by
  rw [transcribe_eq_merge]
  refine ⟨((chunkResults C raws).foldl mergeStep initialAcc).mergedSegments, rfl, ?_⟩
  have h1 := foldl_mergeStep_segments (chunkResults C raws) initialAcc
  have h2 : initialAcc.mergedSegments = [] := rfl
  have h3 : initialAcc.segmentIdCounter = 0 := rfl
  rw [h2, h3, List.nil_append] at h1
  rw [h1, List.range_eq_range']
  exact segsFrom_map_id (chunkResults C raws) 0

theorem c1_merged_segment_ids_witness :
    ([pureText "a"] ≠ ([] : List EngineTranscription)) ∧
    ∃ segs : List Segment,
      (transcribeAudioChunksParallel 1400 [pureText "a"]).segments = some segs ∧
      segs.map Segment.id = (List.range segs.length).map Int.ofNat :=
  ⟨by simp, c1_merged_segment_ids 1400 [pureText "a"] (by simp)⟩

theorem adjustSegments_get (off : ℚ) :
    ∀ (l : List Segment) (k j : ℕ) (hj : j < l.length)
      (hj2 : j < (adjustSegments off k l).length),
      (adjustSegments off k l).get ⟨j, hj2⟩ =
        { l.get ⟨j, hj⟩ with
            id := ((k + j : ℕ) : ℤ)
            start := (l.get ⟨j, hj⟩).start + off
            «end» := (l.get ⟨j, hj⟩).«end» + off
            seek := ⌊((l.get ⟨j, hj⟩).start + off) * 100⌋ }
  | [], _, j, hj, _ => absurd hj (by simp)
  | s :: rest, k, 0, hj, hj2 => by simp [adjustSegments]
  | s :: rest, k, j + 1, hj, hj2 => by
      have hj1 : j < rest.length := Nat.lt_of_succ_lt_succ hj
      have hj3 : j < (adjustSegments off (k + 1) rest).length := by
        rw [adjustSegments_length]; exact hj1
      have ih := adjustSegments_get off rest (k + 1) j hj1 hj3
      show (adjustSegments off (k + 1) rest).get ⟨j, hj3⟩ = _
      rw [ih]
      have hv : (s :: rest).get ⟨j + 1, hj⟩ = rest.get ⟨j, hj1⟩ := rfl
      rw [hv]
      have hk : (k + 1 + j : ℕ) = (k + (j + 1) : ℕ) := by omega
      rw [hk]

theorem mem_segsFrom_chunk (C : ℚ) :
    ∀ (raws : List EngineTranscription) (i0 k i : ℕ) (hi : i < raws.length)
      (j : ℕ) (hj : j < ((raws.get ⟨i, hi⟩).segments.getD []).length),
      ∃ n : ℤ,
        { ((raws.get ⟨i, hi⟩).segments.getD []).get ⟨j, hj⟩ with
            id := n
            start := (((raws.get ⟨i, hi⟩).segments.getD []).get ⟨j, hj⟩).start +
              ((i0 + i : ℕ) : ℚ) * C
            «end» := (((raws.get ⟨i, hi⟩).segments.getD []).get ⟨j, hj⟩).«end» +
              ((i0 + i : ℕ) : ℚ) * C
            seek := ⌊((((raws.get ⟨i, hi⟩).segments.getD []).get ⟨j, hj⟩).start +
              ((i0 + i : ℕ) : ℚ) * C) * 100⌋ }
          ∈ segsFrom (chunkResultsAux C i0 raws) k
  | [], _, _, i, hi, _, _ => absurd hi (by simp)
  | t :: rest, i0, k, 0, hi, j, hj => by
      simp only [Nat.add_zero]
      refine ⟨((k + j : ℕ) : ℤ), ?_⟩
      show _ ∈ adjustSegments ((i0 : ℚ) * C) k (t.segments.getD []) ++
        segsFrom (chunkResultsAux C (i0 + 1) rest) (k + (t.segments.getD []).length)
      apply List.mem_append_left
      have hj2 : j < (adjustSegments ((i0 : ℚ) * C) k (t.segments.getD [])).length := by
        rw [adjustSegments_length]; exact hj
      have h3 := List.get_mem (adjustSegments ((i0 : ℚ) * C) k (t.segments.getD [])) j hj2
      rw [adjustSegments_get ((i0 : ℚ) * C) (t.segments.getD []) k j hj hj2] at h3
      exact h3
  | t :: rest, i0, k, i + 1, hi, j, hj => by
      have hi1 : i < rest.length := Nat.lt_of_succ_lt_succ hi
      obtain ⟨n, hn⟩ :=
        mem_segsFrom_chunk C rest (i0 + 1) (k + (t.segments.getD []).length) i hi1 j hj
      refine ⟨n, ?_⟩
      show _ ∈ adjustSegments ((i0 : ℚ) * C) k (t.segments.getD []) ++
        segsFrom (chunkResultsAux C (i0 + 1) rest) (k + (t.segments.getD []).length)
      apply List.mem_append_right
      have he : (i0 + 1 + i : ℕ) = (i0 + (i + 1) : ℕ) := by omega
      rw [he] at hn
      exact hn

/-- C2: every segment of chunk i with chunk-local start s and end e appears in
the merged transcript with start s + i*C, end e + i*C, and seek recomputed as
the floor of (s + i*C) * 100 centiseconds; its text and passthrough fields are
preserved. -/
theorem c2_segment_rebasing (C : ℚ) (raws : List EngineTranscription)
    (i : ℕ) (hi : i < raws.length) (j : ℕ)
    (hj : j < ((raws.get ⟨i, hi⟩).segments.getD []).length) :
    ∃ (n : ℤ) (segs : List Segment),
      (transcribeAudioChunksParallel C raws).segments = some segs ∧
      { ((raws.get ⟨i, hi⟩).segments.getD []).get ⟨j, hj⟩ with
          id := n
          start := (((raws.get ⟨i, hi⟩).segments.getD []).get ⟨j, hj⟩).start + (i : ℚ) * C
          «end» := (((raws.get ⟨i, hi⟩).segments.getD []).get ⟨j, hj⟩).«end» + (i : ℚ) * C
          seek := ⌊((((raws.get ⟨i, hi⟩).segments.getD []).get ⟨j, hj⟩).start +
            (i : ℚ) * C) * 100⌋ } ∈ segs := by
  obtain ⟨n, hn⟩ := mem_segsFrom_chunk C raws 0 0 i hi j hj
  simp only [Nat.zero_add] at hn
  refine ⟨n, ((chunkResults C raws).foldl mergeStep initialAcc).mergedSegments, ?_, ?_⟩
  · rw [transcribe_eq_merge]; rfl
  · have h1 := foldl_mergeStep_segments (chunkResults C raws) initialAcc
    rw [show initialAcc.mergedSegments = [] from rfl,
      show initialAcc.segmentIdCounter = 0 from rfl, List.nil_append] at h1
    rw [h1]
    exact hn

theorem c2_segment_rebasing_witness :
    0 < [rawWithSegment].length ∧
    ∃ (n : ℤ) (segs : List Segment),
      (transcribeAudioChunksParallel 1400 [rawWithSegment]).segments = some segs ∧
      { id := n
        start := (2 : ℚ) + ((0 : ℕ) : ℚ) * 1400
        «end» := (3 : ℚ) + ((0 : ℕ) : ℚ) * 1400
        seek := ⌊((2 : ℚ) + ((0 : ℕ) : ℚ) * 1400) * 100⌋
        text := "hi"
        extra := ([] : List (String × ℚ)) } ∈ segs := by
  have hi : 0 < [rawWithSegment].length := by simp
  have hj : 0 < ((rawWithSegment.segments).getD []).length := by decide
  obtain ⟨n, segs, h1, h2⟩ := c2_segment_rebasing 1400 [rawWithSegment] 0 hi 0 hj
  exact ⟨hi, n, segs, h1, h2⟩

/-! Helper lemmas about the pipeline controller. -/

theorem sequenceExcept_error_of_mem :
    ∀ (l : List (Except String EngineTranscription)) (e : String),
      Except.error e ∈ l → ∃ msg, sequenceExcept l = .error msg
  | [], _, h => absurd h (List.not_mem_nil _)
  | x :: xs, e, h => by
      cases x with
      | error e2 => exact ⟨e2, rfl⟩
      | ok a =>
          rcases List.mem_cons.mp h with h1 | h1
          · exact absurd h1 (by simp)
          · obtain ⟨msg, hm⟩ := sequenceExcept_error_of_mem xs e h1
            exact ⟨msg, by simp only [sequenceExcept, hm]⟩

theorem processCore_chunked (model : String) (d : ℚ)
    (engine : ℕ → Except String EngineTranscription)
    (direct : Except String EngineTranscription) (fs : FS)
    (hd : maxDurationFor model ≤ d) :
    processCore model (some d) engine direct fs =
      ((sequenceExcept ((List.range (numChunksFor d (maxDurationFor model))).map engine)).map
        (transcribeAudioChunksParallel (maxDurationFor model)),
       { chunkFiles := [], tempDir := false }) := by
  have hg : jsGe (some d) (maxDurationFor model) = true := by simp [jsGe, hd]
  cases hs : sequenceExcept ((List.range (numChunksFor d (maxDurationFor model))).map engine) with
  | ok raws => simp [processCore, hg, hs, Except.map]
  | error e => simp [processCore, hg, hs, Except.map]

/-- C3: the pipeline compares the probed duration with the per-engine
threshold (1400 seconds for models whose name contains gpt-4o, 3600
otherwise); at or above the threshold it splits into ceil(d / T) chunks
of window T, transcribes them all and merges, and below it it returns
the engine's single direct result wrapped with chunksProcessed = 1 and
every content field passed through unchanged. -/
theorem c3_threshold_and_paths (model : String) (d : ℚ)
    (engine : ℕ → Except String EngineTranscription)
    (direct : Except String EngineTranscription) (fs : FS) :
    processCore model (some d) engine direct fs =
      (if maxDurationFor model ≤ d then
        ((sequenceExcept ((List.range (numChunksFor d (maxDurationFor model))).map engine)).map
          (transcribeAudioChunksParallel (maxDurationFor model)),
         { chunkFiles := [], tempDir := false })
      else (Except.map wrapDirect direct, fs)) ∧
    (∀ t : EngineTranscription,
      (wrapDirect t).chunksProcessed = 1 ∧ (wrapDirect t).text = t.text ∧
      (wrapDirect t).segments = t.segments ∧ (wrapDirect t).language = t.language ∧
      (wrapDirect t).duration = t.duration ∧ (wrapDirect t).usage = t.usage) ∧
    maxDurationFor "gpt-4o-transcribe" = 1400 ∧ maxDurationFor "gpt-4o-mini-transcribe" = 1400 ∧
    maxDurationFor "whisper-1" = 3600 := by
  refine ⟨?_, fun t => ⟨rfl, rfl, rfl, rfl, rfl, rfl⟩, by decide, by decide, by decide⟩
  by_cases hd : maxDurationFor model ≤ d
  · rw [if_pos hd]; exact processCore_chunked model d engine direct fs hd
  · rw [if_neg hd]
    have hg : jsGe (some d) (maxDurationFor model) = false := by simp [jsGe, hd]
    cases direct <;> simp [processCore, hg, Except.map]

/-- C4: if any one of the per-chunk transcription calls fails, the whole
chunked transcription fails and the pipeline invocation reports
success = false with no transcript. -/
theorem c4_fail_fast (model : String) (d : ℚ)
    (engine : ℕ → Except String EngineTranscription)
    (direct : Except String EngineTranscription) (fs : FS)
    (hd : maxDurationFor model ≤ d) (i : ℕ)
    (hi : i < numChunksFor d (maxDurationFor model)) (e : String)
    (he : engine i = .error e) :
    (∃ msg, transcribeAudioChunksParallelE (maxDurationFor model)
        ((List.range (numChunksFor d (maxDurationFor model))).map engine) = .error msg) ∧
    (processSingleVideoCore model (some d) engine direct fs).1.success = false ∧
    (processSingleVideoCore model (some d) engine direct fs).1.transcript = none := by
  have hmem : Except.error e ∈ (List.range (numChunksFor d (maxDurationFor model))).map engine :=
    List.mem_map.mpr ⟨i, List.mem_range.mpr hi, he⟩
  obtain ⟨msg, hmsg⟩ := sequenceExcept_error_of_mem _ e hmem
  have hp := processCore_chunked model d engine direct fs hd
  refine ⟨⟨msg, ?_⟩, ?_, ?_⟩
  · simp [transcribeAudioChunksParallelE, hmsg, Except.map]
  · simp [processSingleVideoCore, hp, hmsg, Except.map]
  · simp [processSingleVideoCore, hp, hmsg, Except.map]

/-- C5: on the chunked path, whatever the engine outcomes, the final
working area holds no chunk file and no temporary chunks directory:
the cleanup runs on the success exit and on the failure exit alike. -/
theorem c5_chunk_cleanup (model : String) (d : ℚ)
    (engine : ℕ → Except String EngineTranscription)
    (direct : Except String EngineTranscription) (fs : FS)
    (hd : maxDurationFor model ≤ d) :
    (processSingleVideoCore model (some d) engine direct fs).2 =
      { chunkFiles := [], tempDir := false } := by
  have hp := processCore_chunked model d engine direct fs hd
  cases hs : sequenceExcept ((List.range (numChunksFor d (maxDurationFor model))).map engine) with
  | ok raws => simp [processSingleVideoCore, hp, hs, Except.map]
  | error e => simp [processSingleVideoCore, hp, hs, Except.map]

/-- C7: the duration probe returns a non-negative number of seconds when
the tool output parses to one, returns 0 whenever the probe process
fails, and a probed duration of 0 always falls below the threshold, so
the pipeline takes the direct path. -/
theorem c7_duration_probe (probe : Except Unit String)
    (h : ∀ s, probe = .ok s → ∃ dd : ℚ, parseFloatQ (jsTrim s) = some dd ∧ 0 ≤ dd) :
    (∃ dd : ℚ, getAudioDuration probe = some dd ∧ 0 ≤ dd) ∧
    (∀ u : Unit, probe = .error u → getAudioDuration probe = some 0) ∧
    (∀ (model : String) (engine : ℕ → Except String EngineTranscription)
        (direct : Except String EngineTranscription) (fs : FS),
      getAudioDuration probe = some 0 →
        processCore model (getAudioDuration probe) engine direct fs =
          (Except.map wrapDirect direct, fs)) := by
  refine ⟨?_, ?_, ?_⟩
  · cases hp : probe with
    | error u => exact ⟨0, rfl, le_refl 0⟩
    | ok s =>
        obtain ⟨dd, hd1, hd2⟩ := h s hp
        exact ⟨dd, by simpa [getAudioDuration] using hd1, hd2⟩
  · intro u hu; rw [hu]; rfl
  · intro model engine direct fs h0
    rw [h0]
    have hmax : ¬ maxDurationFor model ≤ (0 : ℚ) := by
      unfold maxDurationFor; split <;> norm_num
    have hg : jsGe (some 0) (maxDurationFor model) = false := by simp [jsGe, hmax]
    cases direct <;> simp [processCore, hg, Except.map]

theorem c4_fail_fast_witness :
    maxDurationFor "whisper-1" ≤ (5000 : ℚ) ∧
    1 < numChunksFor 5000 (maxDurationFor "whisper-1") ∧
    engineW 1 = .error "chunk failed" ∧
    (∃ msg, transcribeAudioChunksParallelE (maxDurationFor "whisper-1")
        ((List.range (numChunksFor 5000 (maxDurationFor "whisper-1"))).map engineW) =
          .error msg) ∧
    (processSingleVideoCore "whisper-1" (some 5000) engineW (.ok (pureText "a"))
        { chunkFiles := [], tempDir := false }).1.success = false ∧
    (processSingleVideoCore "whisper-1" (some 5000) engineW (.ok (pureText "a"))
        { chunkFiles := [], tempDir := false }).1.transcript = none := by
  have hm : maxDurationFor "whisper-1" = (3600 : ℚ) := by decide
  have hd : maxDurationFor "whisper-1" ≤ (5000 : ℚ) := by rw [hm]; norm_num
  have hn : numChunksFor 5000 (maxDurationFor "whisper-1") = 2 := by
    rw [hm]; unfold numChunksFor
    rw [show ⌈(5000 : ℚ) / 3600⌉ = 2 by rw [Int.ceil_eq_iff]; norm_num]
    rfl
  have hi : 1 < numChunksFor 5000 (maxDurationFor "whisper-1") := by rw [hn]; norm_num
  have he : engineW 1 = .error "chunk failed" := rfl
  obtain ⟨h1, h2, h3⟩ := c4_fail_fast "whisper-1" 5000 engineW (.ok (pureText "a"))
    { chunkFiles := [], tempDir := false } hd 1 hi "chunk failed" he
  exact ⟨hd, hi, he, h1, h2, h3⟩

theorem c5_chunk_cleanup_witness :
    maxDurationFor "whisper-1" ≤ (5000 : ℚ) ∧
    (processSingleVideoCore "whisper-1" (some 5000) engineW (.ok (pureText "a"))
        { chunkFiles := [3, 7], tempDir := true }).2 =
      { chunkFiles := [], tempDir := false } := by
  have hm : maxDurationFor "whisper-1" = (3600 : ℚ) := by decide
  have hd : maxDurationFor "whisper-1" ≤ (5000 : ℚ) := by rw [hm]; norm_num
  exact ⟨hd, c5_chunk_cleanup "whisper-1" 5000 engineW (.ok (pureText "a"))
    { chunkFiles := [3, 7], tempDir := true } hd⟩

theorem c7_duration_probe_witness :
    (∀ s, (.error () : Except Unit String) = .ok s →
      ∃ dd : ℚ, parseFloatQ (jsTrim s) = some dd ∧ 0 ≤ dd) ∧
    (∃ dd : ℚ, getAudioDuration (.error ()) = some dd ∧ 0 ≤ dd) ∧
    (∀ u : Unit, (.error () : Except Unit String) = .error u →
      getAudioDuration (.error ()) = some 0) ∧
    (∀ (model : String) (engine : ℕ → Except String EngineTranscription)
        (direct : Except String EngineTranscription) (fs : FS),
      getAudioDuration (.error ()) = some 0 →
        processCore model (getAudioDuration (.error ())) engine direct fs =
          (Except.map wrapDirect direct, fs)) := by
  have hyp : ∀ s, (.error () : Except Unit String) = .ok s →
      ∃ dd : ℚ, parseFloatQ (jsTrim s) = some dd ∧ 0 ≤ dd := fun s hs => nomatch hs
  obtain ⟨h1, h2, h3⟩ := c7_duration_probe (.error ()) hyp
  exact ⟨hyp, h1, h2, h3⟩

/-! Helper lemmas about the running maximum for totalDurationSeconds. -/

theorem foldl_mergeStep_duration :
    ∀ (l : List ChunkResult) (acc : MergeAcc),
      (l.foldl mergeStep acc).totalDuration =
        l.foldl (fun a r => max a (r.timeOffset + r.duration)) acc.totalDuration
  | [], _ => rfl
  | r :: rest, acc => by
      have h1 : (mergeStep acc r).totalDuration =
          max acc.totalDuration (r.timeOffset + r.duration) := rfl
      calc ((r :: rest).foldl mergeStep acc).totalDuration
          = (rest.foldl mergeStep (mergeStep acc r)).totalDuration := rfl
        _ = rest.foldl (fun a r => max a (r.timeOffset + r.duration))
              (mergeStep acc r).totalDuration := foldl_mergeStep_duration rest _
        _ = (r :: rest).foldl (fun a r => max a (r.timeOffset + r.duration))
              acc.totalDuration := by rw [List.foldl_cons, h1]

theorem init_le_foldl_maxdur :
    ∀ (l : List ChunkResult) (a : ℚ),
      a ≤ l.foldl (fun a r => max a (r.timeOffset + r.duration)) a
  | [], _ => le_refl _
  | _ :: xs, _ => le_trans (le_max_left _ _) (init_le_foldl_maxdur xs _)

theorem le_foldl_maxdur :
    ∀ (l : List ChunkResult) (a : ℚ) (r : ChunkResult), r ∈ l →
      r.timeOffset + r.duration ≤
        l.foldl (fun a r => max a (r.timeOffset + r.duration)) a
  | [], _, _, h => absurd h (List.not_mem_nil _)
  | x :: xs, a, r, h => by
      rcases List.mem_cons.mp h with h1 | h1
      · subst h1
        exact le_trans (le_max_right _ _) (init_le_foldl_maxdur xs _)
      · exact le_foldl_maxdur xs _ r h1

theorem foldl_maxdur_attained :
    ∀ (l : List ChunkResult) (a : ℚ),
      l.foldl (fun a r => max a (r.timeOffset + r.duration)) a = a ∨
      ∃ r ∈ l, l.foldl (fun a r => max a (r.timeOffset + r.duration)) a =
        r.timeOffset + r.duration
  | [], _ => Or.inl rfl
  | x :: xs, a => by
      have hstep : (x :: xs).foldl (fun a r => max a (r.timeOffset + r.duration)) a =
          xs.foldl (fun a r => max a (r.timeOffset + r.duration))
            (max a (x.timeOffset + x.duration)) := rfl
      rcases foldl_maxdur_attained xs (max a (x.timeOffset + x.duration)) with h | ⟨r, hr, hh⟩
      · rcases max_cases a (x.timeOffset + x.duration) with ⟨he, _⟩ | ⟨he, _⟩
        · exact Or.inl (by rw [hstep, h, he])
        · exact Or.inr ⟨x, List.mem_cons_self x xs, by rw [hstep, h, he]⟩
      · exact Or.inr ⟨r, List.mem_cons_of_mem x hr, hh⟩

/-- C9: for a non-empty chunk-result list (with a non-negative window and
non-negative reported durations), the merged totalDurationSeconds is the
maximum over all chunks of timeOffset + reported duration: every chunk's
value is bounded by it and some chunk attains it. -/
theorem c9_total_duration (C : ℚ) (raws : List EngineTranscription)
    (hne : raws ≠ []) (hC : 0 ≤ C)
    (hdur : ∀ t ∈ raws, ∀ dd : ℚ, t.duration = some dd → 0 ≤ dd) :
    ∃ total : ℚ,
      (transcribeAudioChunksParallel C raws).duration = some total ∧
      (∀ r ∈ chunkResults C raws, r.timeOffset + r.duration ≤ total) ∧
      (∃ r ∈ chunkResults C raws, total = r.timeOffset + r.duration) := by
  refine ⟨((chunkResults C raws).foldl mergeStep initialAcc).totalDuration, ?_, ?_, ?_⟩
  · rw [transcribe_eq_merge]; rfl
  · intro r hr
    rw [foldl_mergeStep_duration]
    exact le_foldl_maxdur (chunkResults C raws) initialAcc.totalDuration r hr
  · rw [foldl_mergeStep_duration]
    rcases foldl_maxdur_attained (chunkResults C raws) initialAcc.totalDuration with
      h0 | ⟨r, hr, hh⟩
    · -- the running maximum never moved off its 0 start; then the first
      -- chunk must contribute exactly 0
      obtain ⟨t0, rest, hcons⟩ := List.exists_cons_of_ne_nil hne
      subst hcons
      have hr0 : mkChunkResult C 0 t0 ∈ chunkResults C (t0 :: rest) :=
        List.mem_cons_self _ _
      have hub := le_foldl_maxdur (chunkResults C (t0 :: rest))
        initialAcc.totalDuration _ hr0
      rw [h0] at hub
      have hz : initialAcc.totalDuration = 0 := rfl
      rw [hz] at hub h0 ⊢
      have hpos : 0 ≤ (mkChunkResult C 0 t0).timeOffset + (mkChunkResult C 0 t0).duration := by
        have ho : (mkChunkResult C 0 t0).timeOffset = ((0 : ℕ) : ℚ) * C := rfl
        have hdd : (mkChunkResult C 0 t0).duration = jsOrQ t0.duration C := rfl
        rw [ho, hdd]
        have h1 : 0 ≤ jsOrQ t0.duration C := by
          unfold jsOrQ
          cases ht : t0.duration with
          | none => simpa [jsTruthyQ] using hC
          | some dd =>
              by_cases hdz : dd = 0
              · simp [jsTruthyQ, hdz, hC]
              · have := hdur t0 (List.mem_cons_self _ _) dd ht
                simp [jsTruthyQ, hdz, this]
        simpa using h1
      refine ⟨mkChunkResult C 0 t0, hr0, ?_⟩
      rw [h0]
      exact le_antisymm hpos hub
    · exact ⟨r, hr, hh⟩

theorem c9_total_duration_witness :
    ([rawWithSpaces, pureText "b"] ≠ ([] : List EngineTranscription)) ∧
    (0 : ℚ) ≤ 1400 ∧
    ∃ total : ℚ,
      (transcribeAudioChunksParallel 1400 [rawWithSpaces, pureText "b"]).duration =
        some total ∧
      (∀ r ∈ chunkResults 1400 [rawWithSpaces, pureText "b"],
        r.timeOffset + r.duration ≤ total) ∧
      (∃ r ∈ chunkResults 1400 [rawWithSpaces, pureText "b"],
        total = r.timeOffset + r.duration) := by
  have hne : [rawWithSpaces, pureText "b"] ≠ ([] : List EngineTranscription) := by simp
  have hC : (0 : ℚ) ≤ 1400 := by norm_num
  have hdur : ∀ t ∈ [rawWithSpaces, pureText "b"], ∀ dd : ℚ,
      t.duration = some dd → 0 ≤ dd := by
    intro t ht dd hdd
    rcases List.mem_cons.mp ht with h1 | h1
    · subst h1
      rw [show rawWithSpaces.duration = some 10 from rfl] at hdd
      cases hdd
      norm_num
    · rcases List.mem_cons.mp h1 with h2 | h2
      · subst h2
        rw [show (pureText "b").duration = none from rfl] at hdd
        cases hdd
      · exact absurd h2 (List.not_mem_nil t)
  exact ⟨hne, hC, c9_total_duration 1400 [rawWithSpaces, pureText "b"] hne hC hdur⟩

/-- C6 counterexample: on chunk texts a, whitespace, b the code produces
the doubled separator a␣␣b, while the spec's merged text (exactly one
separating space, never a duplicated separator, whitespace-only chunks
contributing nothing) is a␣b. -/
theorem c6_counterexample :
    (transcribeAudioChunksParallel 10 [pureText "a", pureText " ", pureText "b"]).text =
      "a  b" ∧
    specMergedText [(pureText "a").text, (pureText " ").text, (pureText "b").text] = "a b" ∧
    (transcribeAudioChunksParallel 10 [pureText "a", pureText " ", pureText "b"]).text ≠
      specMergedText [(pureText "a").text, (pureText " ").text, (pureText "b").text] := by
  have ht : (transcribeAudioChunksParallel 10 [pureText "a", pureText " ", pureText "b"]).text =
      "a  b" := by
    rw [transcribe_eq_merge]; decide
  have hs : specMergedText [(pureText "a").text, (pureText " ").text, (pureText "b").text] =
      "a b" := by decide
  refine ⟨ht, hs, ?_⟩
  rw [ht, hs]
  decide

/-- C10: the chunk transcription called on an empty chunk list does not
fail: it merges to the empty transcript with empty text, empty segments,
language unknown, duration 0, a zero-second duration usage and
chunksProcessed = 0. -/
theorem c10_empty_chunk_list (C : ℚ) :
    transcribeAudioChunksParallelE C [] =
      .ok { text := ""
            segments := some []
            language := some "unknown"
            duration := some 0
            usage := some { type := "duration", seconds := some 0, total_tokens := none }
            chunksProcessed := 0 } := by
  show Except.map (transcribeAudioChunksParallel C) (sequenceExcept []) = _
  rw [show sequenceExcept [] = .ok [] from rfl]
  show Except.ok (transcribeAudioChunksParallel C []) = _
  rw [transcribe_eq_merge]
  rfl

/-! Helper lemma: the segment adjustment with zero offset is the identity
on segments already carrying the renumbered ids and recomputed seeks. -/

theorem adjustSegments_id :
    ∀ (segs : List Segment) (k : ℕ),
      (∀ j (hj : j < segs.length), (segs.get ⟨j, hj⟩).id = ((k + j : ℕ) : ℤ)) →
      (∀ j (hj : j < segs.length),
        (segs.get ⟨j, hj⟩).seek = ⌊(segs.get ⟨j, hj⟩).start * 100⌋) →
      adjustSegments 0 k segs = segs
  | [], _, _, _ => rfl
  | s :: rest, k, hid, hseek => by
      have h0 : s.id = ((k : ℕ) : ℤ) := by simpa using hid 0 (by simp)
      have hs0 : s.seek = ⌊s.start * 100⌋ := by simpa using hseek 0 (by simp)
      have ihid : ∀ j (hj : j < rest.length),
          (rest.get ⟨j, hj⟩).id = ((k + 1 + j : ℕ) : ℤ) := by
        intro j hj
        have h1 := hid (j + 1) (by simpa using Nat.succ_lt_succ hj)
        have h2 : (k + (j + 1) : ℕ) = (k + 1 + j : ℕ) := by omega
        rw [h2] at h1
        exact h1
      have ihseek : ∀ j (hj : j < rest.length),
          (rest.get ⟨j, hj⟩).seek = ⌊(rest.get ⟨j, hj⟩).start * 100⌋ := by
        intro j hj
        exact hseek (j + 1) (by simpa using Nat.succ_lt_succ hj)
      have hhead : ({ s with
          id := ((k : ℕ) : ℤ)
          start := s.start + 0
          «end» := s.«end» + 0
          seek := ⌊(s.start + 0) * 100⌋ } : Segment) = s := by
        refine Segment.ext ?_ ?_ ?_ ?_ ?_ ?_
        · exact h0.symm
        · exact add_zero s.start
        · exact add_zero s.«end»
        · rw [add_zero]; exact hs0.symm
        · rfl
        · rfl
      show ({ s with
          id := ((k : ℕ) : ℤ)
          start := s.start + 0
          «end» := s.«end» + 0
          seek := ⌊(s.start + 0) * 100⌋ } : Segment) ::
        adjustSegments 0 (k + 1) rest = s :: rest
      rw [hhead, adjustSegments_id rest (k + 1) ihid ihseek]

/-- C8 counterexample: merging a single-chunk result list is not
content-identical to the engine's raw result: the merge trims the chunk
text (here from a text with surrounding spaces), so the merged transcript
differs from the raw result wrapped unchanged with chunksProcessed = 1. -/
theorem c8_counterexample :
    (transcribeAudioChunksParallel 1400 [rawWithSpaces]).text = "hi" ∧
    rawWithSpaces.text = " hi " ∧
    transcribeAudioChunksParallel 1400 [rawWithSpaces] ≠ wrapDirect rawWithSpaces := by
  have ht : (transcribeAudioChunksParallel 1400 [rawWithSpaces]).text = "hi" := by
    rw [transcribe_eq_merge]; decide
  refine ⟨ht, rfl, fun h => ?_⟩
  have h2 := congrArg MergedTranscript.text h
  rw [ht] at h2
  exact absurd h2 (by decide)

/-- C8 (amended): the single-chunk merge reproduces the raw result
wrapped with chunksProcessed = 1 whenever the raw result is already in
the merge's normal form: text already trimmed, segment ids already
0, 1, ..., seek already the floor of start times 100, language present
and non-empty, duration present, non-zero and non-negative, and usage a
duration record with non-zero seconds.  In general the merge is not the
identity on content: it trims the text, renumbers ids, recomputes seek
and rebuilds usage (see the counterexample). -/
theorem c8_single_chunk_normal_form (C : ℚ) (t : EngineTranscription)
    (segs : List Segment) (hseg : t.segments = some segs)
    (hid : ∀ j (hj : j < segs.length), (segs.get ⟨j, hj⟩).id = ((j : ℕ) : ℤ))
    (hseek : ∀ j (hj : j < segs.length),
      (segs.get ⟨j, hj⟩).seek = ⌊(segs.get ⟨j, hj⟩).start * 100⌋)
    (htext : jsTrim t.text = t.text)
    (lang : String) (hlang : t.language = some lang) (hlangne : lang ≠ "")
    (dur : ℚ) (hdur : t.duration = some dur) (hdurnz : dur ≠ 0) (hdurpos : 0 ≤ dur)
    (sec : ℚ) (hsec : sec ≠ 0)
    (husage : t.usage = some (Usage.mk "duration" (some sec) none)) :
    transcribeAudioChunksParallel C [t] = wrapDirect t := by
  rw [transcribe_eq_merge]
  show mergeResults [mkChunkResult C 0 t] = wrapDirect t
  have hoff : (mkChunkResult C 0 t).timeOffset = 0 := by
    show ((0 : ℕ) : ℚ) * C = 0
    simp
  have hsegs : (mkChunkResult C 0 t).segments = segs := by
    show t.segments.getD [] = segs
    rw [hseg]
    rfl
  have hadj : adjustSegments 0 0 segs = segs := by
    apply adjustSegments_id segs 0
    · intro j hj
      have h1 := hid j hj
      have h2 : ((j : ℕ) : ℤ) = ((0 + j : ℕ) : ℤ) := by omega
      rw [h2] at h1
      exact h1
    · exact hseek
  have hmerged : (mergeStep initialAcc (mkChunkResult C 0 t)).mergedSegments = segs := by
    obtain ⟨h1, _⟩ := mergeStep_segments initialAcc (mkChunkResult C 0 t)
    rw [h1]
    show ([] : List Segment) ++
      adjustSegments (mkChunkResult C 0 t).timeOffset 0 (mkChunkResult C 0 t).segments = segs
    rw [List.nil_append, hoff, hsegs, hadj]
  have htext2 : (mergeStep initialAcc (mkChunkResult C 0 t)).mergedText = t.text := by
    show textStep "" (jsTrim (mkChunkResult C 0 t).text) = t.text
    rw [textStep_empty]
    exact htext
  have hdur2 : (mergeStep initialAcc (mkChunkResult C 0 t)).totalDuration = dur := by
    show max 0 ((mkChunkResult C 0 t).timeOffset + (mkChunkResult C 0 t).duration) = dur
    rw [hoff]
    show max 0 (0 + jsOrQ t.duration C) = dur
    rw [hdur]
    have hjs : jsOrQ (some dur) C = dur := by simp [jsOrQ, jsTruthyQ, hdurnz]
    rw [hjs, zero_add]
    exact max_eq_right hdurpos
  have husage2 : (mergeStep initialAcc (mkChunkResult C 0 t)).usageSeconds = sec := by
    show 0 + usageContribution t.usage = sec
    rw [husage]
    simp [usageContribution, jsTruthyQ, hsec]
  have hlang2 : jsOrS ([mkChunkResult C 0 t].head?.bind ChunkResult.language) "unknown" =
      lang := by
    rw [show [mkChunkResult C 0 t].head?.bind ChunkResult.language = t.language from rfl, hlang]
    simp [jsOrS, jsTruthyS, hlangne]
  refine MergedTranscript.ext ?_ ?_ ?_ ?_ ?_ ?_
  · exact htext2
  · show some (mergeStep initialAcc (mkChunkResult C 0 t)).mergedSegments = t.segments
    rw [hmerged, hseg]
  · show some (jsOrS ([mkChunkResult C 0 t].head?.bind ChunkResult.language) "unknown") =
      t.language
    rw [hlang2, hlang]
  · show some (mergeStep initialAcc (mkChunkResult C 0 t)).totalDuration = t.duration
    rw [hdur2, hdur]
  · show some (Usage.mk "duration"
        (some (mergeStep initialAcc (mkChunkResult C 0 t)).usageSeconds) none) = t.usage
    rw [husage2, husage]
  · rfl

theorem c8_single_chunk_normal_form_witness :
    rawNormal.segments = some [segNormal] ∧
    jsTrim rawNormal.text = rawNormal.text ∧
    transcribeAudioChunksParallel 1400 [rawNormal] = wrapDirect rawNormal := by
  have hid : ∀ j (hj : j < ([segNormal] : List Segment).length),
      (([segNormal] : List Segment).get ⟨j, hj⟩).id = ((j : ℕ) : ℤ) := by
    intro j hj
    have hj0 : j = 0 := by
      have := hj
      simp at this
      omega
    subst hj0
    rfl
  have hseek : ∀ j (hj : j < ([segNormal] : List Segment).length),
      (([segNormal] : List Segment).get ⟨j, hj⟩).seek =
        ⌊(([segNormal] : List Segment).get ⟨j, hj⟩).start * 100⌋ := by
    intro j hj
    have hj0 : j = 0 := by
      have := hj
      simp at this
      omega
    subst hj0
    show (200 : ℤ) = ⌊(2 : ℚ) * 100⌋
    norm_num
  have htext : jsTrim rawNormal.text = rawNormal.text := by decide
  refine ⟨rfl, htext, ?_⟩
  exact c8_single_chunk_normal_form 1400 rawNormal [segNormal] rfl hid hseek htext
    "en" rfl (by decide) 10 rfl (by norm_num) (by norm_num) 10 (by norm_num) rfl

end YTT
